import Mathlib

/-!
Verification of the InkWash artifact acquisition and caching pipeline.

This file gives a shallow embedding of the binary cache
(`internal/cache/binary.go`), the parallel downloader
(`internal/download/downloader.go`), the archive extractor and artifact
client (`internal/download/`), and the installer orchestrator
(`internal/server/installer.go`), together with theorems about the
properties claimed of them.

Modelling conventions:
* `time.Time` values are modelled as `Int` timestamps; `time.Before` is `<`.
* `int`/`int64` are modelled as `Int` (the quantities involved — file
  sizes, build numbers, counts — never approach 2^63, so wraparound is
  not modelled).
* Filesystem and network effects are made explicit: functions take the
  relevant outcome (file size, directory listing, response bytes) as an
  argument, or return the list of writes they would perform.
-/

/-- Modelled from the spec: `types.Build` (`pkg/types` is not included in
the sources); spec section 3 gives
`{number int, hash string, timestamp, recommended bool, optional bool, size int64}`. -/
structure Build where
  number : Int
  hash : String
  timestamp : Int
  recommended : Bool
  optional : Bool
  size : Int
deriving DecidableEq, Repr

/-- `cache.CachedBuild` from `internal/cache/metadata.go`. -/
structure CachedBuild where
  number : Int
  hash : String
  downloaded : Int
  size : Int
  recommended : Bool
  optional : Bool
  lastUsed : Int
deriving DecidableEq, Repr

/-- `cache.Metadata` from `internal/cache/metadata.go`. -/
structure Metadata where
  version : Int
  builds : List CachedBuild
  maxBuilds : Int
  totalSize : Int
deriving DecidableEq, Repr

/-- `cache.CacheStats` from `internal/cache/metadata.go`. -/
structure CacheStats where
  totalBuilds : Int
  totalSize : Int
  maxBuilds : Int
deriving DecidableEq, Repr

/-- `cache.BinaryCache` from `internal/cache/binary.go` (the `basePath`
string is irrelevant to the claims and omitted; directory layout is not
modelled). -/
structure BinaryCache where
  metadata : Metadata
  maxBuilds : Int
deriving DecidableEq, Repr

/-! ### The eviction sort

`enforceLimits` runs `sort.Slice(bc.metadata.Builds, less)` with
`less i j = Builds[i].LastUsed.Before(Builds[j].LastUsed)`.  Go's
`sort.Slice` dispatches to the runtime's pdqsort, which for slices of
length at most 12 (every slice reachable with `maxBuilds ≤ 11`,
including the default 3) is exactly the insertion sort
`for i := a+1; i < b; i++ { for j := i; j > a && less(j, j-1); j-- { swap(j, j-1) } }`.
We embed that insertion-sort loop verbatim (index-based, with swaps).
For longer slices the real pdqsort produces the same keys in the same
order but with an implementation-defined order among equal keys; no
theorem below relies on the order of equal keys beyond length 12. -/

/-- One `data.Swap(i, j)` on a list; out-of-range indices leave the list
unchanged (unreachable in the embedded loops). -/
def lswap {α : Type} (l : List α) (i j : Nat) : List α :=
  match l[i]?, l[j]? with
  | some x, some y => (l.set i y).set j x
  | _, _ => l

/-- The inner loop of Go's `insertionSort`:
`for j := i; j > 0 && less(j, j-1); j-- { swap(j, j-1) }`. -/
def sift {α : Type} (lt : α → α → Bool) (l : List α) : Nat → List α
  | 0 => l
  | j + 1 =>
    match l[j + 1]?, l[j]? with
    | some x, some y => if lt x y then sift lt (lswap l j (j + 1)) j else l
    | _, _ => l

/-- The outer loop `for i := 1; i < n; i++`, with explicit fuel
(`l.length` fuel always suffices since `sift` preserves length). -/
def isortLoop {α : Type} (lt : α → α → Bool) (l : List α) (i : Nat) : Nat → List α
  | 0 => l
  | fuel + 1 => if i < l.length then isortLoop lt (sift lt l i) (i + 1) fuel else l

/-- Go's `insertionSort(data, 0, n)` on a list. -/
def insertionSortGo {α : Type} (lt : α → α → Bool) (l : List α) : List α :=
  isortLoop lt l 1 l.length

/-- Functional companion of the sift loop: insert `x` from the right,
moving it left past exactly the elements `z` with `lt x z`. -/
def insertR {α : Type} (lt : α → α → Bool) (x : α) : List α → List α
  | [] => [x]
  | y :: ys => if lt x y && ys.all (fun z => lt x z) then x :: y :: ys else y :: insertR lt x ys

/-- Functional companion of the whole insertion sort: fold the input
left to right, inserting each element into the sorted prefix. -/
def insertionSortFun {α : Type} (lt : α → α → Bool) (l : List α) : List α :=
  l.foldl (fun acc x => insertR lt x acc) []

/-- The comparison closure passed to `sort.Slice` in `enforceLimits`:
`Builds[i].LastUsed.Before(Builds[j].LastUsed)`. -/
def ltLastUsed (a b : CachedBuild) : Bool :=
  a.lastUsed < b.lastUsed

/-- The `sort.Slice` call of `enforceLimits` (see the note above on the
insertion-sort embedding of `sort.Slice`). -/
def sortByLastUsed (l : List CachedBuild) : List CachedBuild :=
  insertionSortGo ltLastUsed l

/-! ### Cache operations (`internal/cache/binary.go`) -/

/-- The metadata-scan loop of `BinaryCache.Remove`: find the first build
with the given number, drop it, and report its `Size` (0 if absent). -/
def removeFirst (n : Int) : List CachedBuild → List CachedBuild × Int
  | [] => ([], 0)
  | b :: rest =>
    if b.number = n then (rest, b.size)
    else
      let r := removeFirst n rest
      (b :: r.1, r.2)

/-- `BinaryCache.Remove` restricted to its metadata effect: remove the
first entry with the given number and subtract its size from
`TotalSize` (the directory removal is a filesystem effect). -/
def removeBuild (m : Metadata) (n : Int) : Metadata :=
  { m with builds := (removeFirst n m.builds).1,
           totalSize := m.totalSize - (removeFirst n m.builds).2 }

/-- The removal loop of `enforceLimits`:
`for i := 0; i < toRemove; i++ { Remove(Builds[0].Number) }`.
(Go would panic on an empty slice; the loop never reaches that state.) -/
def dropOldest (m : Metadata) : Nat → Metadata
  | 0 => m
  | k + 1 =>
    match m.builds with
    | [] => m
    | b :: _ => dropOldest (removeBuild m b.number) k

/-- `BinaryCache.enforceLimits`: if the entry count exceeds `maxBuilds`,
sort ascending by `lastUsed` and remove oldest entries until the count
equals `maxBuilds`. -/
def enforceLimits (maxBuilds : Int) (m : Metadata) : Metadata :=
  if (m.builds.length : Int) ≤ maxBuilds then m
  else
    let sorted := { m with builds := sortByLastUsed m.builds }
    dropOldest sorted ((m.builds.length : Int) - maxBuilds).toNat

/-- The `CachedBuild` record constructed by `BinaryCache.Add`
(`Downloaded` and `LastUsed` are both `time.Now()`). -/
def mkCachedBuild (b : Build) (archiveSize now : Int) : CachedBuild :=
  { number := b.number, hash := b.hash, downloaded := now, size := archiveSize,
    recommended := b.recommended, optional := b.optional, lastUsed := now }

/-- `BinaryCache.Add` restricted to its metadata effect on the success
path: append the new entry, add the archive size to `TotalSize`, then
run `enforceLimits`.  `archiveSize` is the `os.Stat` size of the copied
archive and `now` the timestamp. -/
def BinaryCache.add (c : BinaryCache) (b : Build) (archiveSize now : Int) : BinaryCache :=
  let m := { c.metadata with
               builds := c.metadata.builds ++ [mkCachedBuild b archiveSize now],
               totalSize := c.metadata.totalSize + archiveSize }
  { c with metadata := enforceLimits c.maxBuilds m }

/-- `BinaryCache.updateLastUsed`: set `LastUsed` of the first entry with
the given number (no effect if absent). -/
def updateLastUsed (n now : Int) : List CachedBuild → List CachedBuild
  | [] => []
  | b :: rest =>
    if b.number = n then { b with lastUsed := now } :: rest
    else b :: updateLastUsed n now rest

/-- `BinaryCache.Get`: `onDisk` is the outcome of the `os.Stat` probe of
`basePath/{n}/extracted`.  On a hit it returns the path and bumps
`lastUsed`; on a miss it returns the not-in-cache error unchanged. -/
def BinaryCache.get (c : BinaryCache) (n : Int) (onDisk : Bool) (now : Int) :
    Except String String × BinaryCache :=
  if onDisk then
    (Except.ok ("cache/" ++ toString n ++ "/extracted"),
      { c with metadata := { c.metadata with builds := updateLastUsed n now c.metadata.builds } })
  else
    (Except.error ("build " ++ toString n ++ " not in cache"), c)

/-- `BinaryCache.Remove` as a cache operation. -/
def BinaryCache.remove (c : BinaryCache) (n : Int) : BinaryCache :=
  { c with metadata := removeBuild c.metadata n }

/-- `BinaryCache.Clear` (success path): all entries gone, `TotalSize` 0. -/
def BinaryCache.clear (c : BinaryCache) : BinaryCache :=
  { c with metadata := { c.metadata with builds := [], totalSize := 0 } }

/-- `BinaryCache.List`. -/
def BinaryCache.list (c : BinaryCache) : List CachedBuild :=
  c.metadata.builds

/-- `BinaryCache.GetStats`. -/
def BinaryCache.getStats (c : BinaryCache) : CacheStats :=
  { totalBuilds := (c.metadata.builds.length : Int),
    totalSize := c.metadata.totalSize,
    maxBuilds := c.maxBuilds }

/-- `NewBinaryCache`: clamp non-positive `maxBuilds` to 3, then load the
metadata file if one exists (`existing`) or create fresh metadata. -/
def newBinaryCache (maxBuilds : Int) (existing : Option Metadata) : BinaryCache :=
  let mb := if maxBuilds ≤ 0 then 3 else maxBuilds
  { maxBuilds := mb,
    metadata := existing.getD { version := 1, builds := [], maxBuilds := mb, totalSize := 0 } }

/-- The `totalSize` invariant claimed of the metadata: `TotalSize` equals
the sum of the entries' sizes. -/
def sizeInvariant (m : Metadata) : Prop :=
  m.totalSize = (m.builds.map CachedBuild.size).sum

/-! ### Lexical path handling (`path/filepath`, Unix separator)

`Extractor` builds each entry's destination with `filepath.Join` and
checks it with `strings.HasPrefix(filepath.Clean(path), filepath.Clean(dest))`.
`filepath.Clean` is implemented here component-wise: drop empty and `.`
components, resolve `..` against the stack (dropping it at the root when
rooted, keeping it when relative and nothing can be popped) — the
standard lexical algorithm of Go's `filepath.Clean`. -/

/-- Split a character list at `'/'` separators (structural recursion, so
that concrete paths evaluate inside the kernel). -/
def splitSlash (acc : List Char) : List Char → List (List Char)
  | [] => [acc.reverse]
  | c :: rest => if c = '/' then acc.reverse :: splitSlash [] rest else splitSlash (c :: acc) rest

/-- Prefix test on character lists. -/
def isPrefixChars : List Char → List Char → Bool
  | [], _ => true
  | _ :: _, [] => false
  | a :: as, b :: bs => a = b && isPrefixChars as bs

/-- `strings.HasPrefix`: `p` is a prefix of `s`. -/
def strHasPfx (s p : String) : Bool :=
  isPrefixChars p.toList s.toList

/-- Join components with `'/'` separators. -/
def joinSlash : List String → String
  | [] => ""
  | [c] => c
  | c :: rest => c ++ "/" ++ joinSlash rest

/-- Split a path into its non-empty, non-separator components. -/
def splitComps (path : String) : List String :=
  ((splitSlash [] path.toList).map (fun cs => String.mk cs)).filter (fun s => s ≠ "")

/-- One step of `filepath.Clean`'s component processing (the accumulator
holds the output components in reverse). -/
def cleanFold (rooted : Bool) (acc : List String) (c : String) : List String :=
  if c = "." then acc
  else if c = ".." then
    match acc with
    | [] => if rooted then [] else [".."]
    | top :: rest => if top = ".." then c :: acc else rest
  else c :: acc

/-- `filepath.Clean` (Unix rules). -/
def filepathClean (path : String) : String :=
  if path = "" then "."
  else
    let rooted := path.toList.head? = some '/'
    let comps := ((splitComps path).foldl (cleanFold rooted) []).reverse
    if rooted then "/" ++ joinSlash comps
    else if comps = [] then "." else joinSlash comps

/-- `filepath.Join` for two elements: join the non-empty elements with a
separator and `Clean` the result. -/
def filepathJoin (a b : String) : String :=
  if a = "" && b = "" then ""
  else if a = "" then filepathClean b
  else if b = "" then filepathClean a
  else filepathClean (a ++ "/" ++ b)

/-- `filepath.Dir`: everything up to the final separator, `Clean`ed. -/
def filepathDir (p : String) : String :=
  filepathClean (String.mk ((p.toList.reverse.dropWhile (fun c => c ≠ '/')).reverse))

/-! ### Extractor (`internal/download/extractor.go`) -/

/-- Tar header type flags relevant to `extractTarXz` (`other` covers
every flag its switch ignores). -/
inductive TarType
  | dir
  | reg
  | symlink
  | other
deriving DecidableEq, Repr

/-- One tar archive entry as seen by `extractTarXz`. -/
structure TarEntry where
  name : String
  typ : TarType
  linkname : String
deriving DecidableEq, Repr

/-- A filesystem write performed during extraction. -/
inductive FsWrite
  | mkdirAll (path : String)
  | file (path : String)
  | symlink (target : String) (path : String)
deriving DecidableEq, Repr

/-- The writes `extractTarXz` performs for one entry that passed the
path check (parent `MkdirAll` plus the file/dir/symlink itself). -/
def tarEntryWrites (path : String) (e : TarEntry) : List FsWrite :=
  match e.typ with
  | .dir => [.mkdirAll path]
  | .reg => [.mkdirAll (filepathDir path), .file path]
  | .symlink => [.mkdirAll (filepathDir path), .symlink e.linkname path]
  | .other => []

/-- `Extractor.extractTarXz`: process entries in order; for each, form
`path := filepath.Join(dest, header.Name)` and reject unless
`strings.HasPrefix(filepath.Clean(path), filepath.Clean(dest))`; on
rejection return the `illegal file path` error, performing no further
writes.  Returns the writes performed and the error, if any. -/
def extractTarXz (dest : String) : List TarEntry → List FsWrite × Option String
  | [] => ([], none)
  | e :: rest =>
    let path := filepathJoin dest e.name
    if strHasPfx (filepathClean path) (filepathClean dest) then
      let r := extractTarXz dest rest
      (tarEntryWrites path e ++ r.1, r.2)
    else
      ([], some ("illegal file path: " ++ e.name))

/-- Modelled from the spec: containment of a (cleaned) path under the
destination directory — the path is the destination itself or lies
strictly below it.  Used to compare the code's prefix check against the
spec's notion of containment. -/
def underDest (dest p : String) : Bool :=
  p == dest || strHasPfx p (dest ++ "/")

/-! ### Downloader (`internal/download/downloader.go`) -/

/-- `NewDownloader`: non-positive chunk counts fall back to 3. -/
def newDownloaderChunks (numChunks : Int) : Int :=
  if numChunks ≤ 0 then 3 else numChunks

/-- Chunk start offset: `start := int64(chunkID) * chunkSize`. -/
def chunkStart (chunkSize : Int) (i : Nat) : Int :=
  (i : Int) * chunkSize

/-- Chunk end offset (inclusive): `end := start + chunkSize - 1`, with
the last chunk absorbing the remainder (`end = totalSize - 1`). -/
def chunkEnd (totalSize chunkSize : Int) (numChunks i : Nat) : Int :=
  if i = numChunks - 1 then totalSize - 1
  else (i : Int) * chunkSize + chunkSize - 1

/-- Semantics of one chunk task's `Range: bytes=start-stop` GET against
a conforming server holding `data`, combined with `downloadChunk`'s
response handling.  A well-formed in-bounds range (`start ≤ stop`, the
only well-formed ranges `downloadParallel` emits) is answered 206 with
exactly those bytes.  When `chunkSize = 0` (reachable for
`0 < totalSize < numChunks`) every non-last chunk computes
`end = start - 1` and sends the malformed header `Range: bytes=0--1`;
a conforming server ignores the invalid ranges-specifier and replies
200 with the full body, and `downloadChunk` accepts `StatusOK` as well
as `StatusPartialContent` and writes the entire response body into the
part file. -/
def rangeGet (data : List UInt8) (start stop : Int) : List UInt8 :=
  if stop < start then data
  else (data.drop start.toNat).take (stop + 1 - start).toNat

/-- `Downloader.mergeChunks`: concatenate the part files in index order
`0..numChunks-1` into the destination file. -/
def mergeChunks (parts : List (List UInt8)) : List UInt8 :=
  parts.flatten

/-- `Downloader.downloadParallel` over a resource of known size: compute
`chunkSize := totalSize / numChunks`, fetch each chunk's byte range into
its part file, and merge the parts in index order. -/
def downloadParallel (data : List UInt8) (numChunks : Nat) : List UInt8 :=
  let totalSize : Int := (data.length : Int)
  let chunkSize : Int := totalSize / (numChunks : Int)
  mergeChunks ((List.range numChunks).map
    (fun i => rangeGet data (chunkStart chunkSize i) (chunkEnd totalSize chunkSize numChunks i)))

/-! ### Artifact client and installer (`internal/download/artifacts.go`,
`internal/server/installer.go`) -/

/-- `download.WindowsArtifactURL`. -/
def windowsArtifactURL : String :=
  "https://runtime.fivem.net/artifacts/fivem/build_server_windows/master/"

/-- `download.LinuxArtifactURL`. -/
def linuxArtifactURL : String :=
  "https://runtime.fivem.net/artifacts/fivem/build_proot_linux/master/"

/-- `ArtifactClient.GetDownloadURL`: platform base URL + build hash +
platform archive filename. -/
def getDownloadURL (isWindows : Bool) (b : Build) : String :=
  (if isWindows then windowsArtifactURL else linuxArtifactURL) ++ b.hash ++ "/" ++
    (if isWindows then "server.7z" else "fx.tar.xz")

/-- The externally observable actions of `Installer.installBinary`, in
program order. -/
inductive BinAction
  | fetchBuilds
  | cacheGet (buildNumber : Int)
  | cacheCopy
  | download (url : String)
  | extract
  | copyBin
  | cacheAdd (buildNumber : Int)
deriving DecidableEq, Repr

/-- `Installer.installBinary` as an action trace: fetch the remote
listing, locate the requested build (first match of the range loop),
then either copy from cache (`cacheHit`) or download, extract, copy and
cache.  `fetched` is the outcome of `FetchBuilds`. -/
def installBinaryGo (isWindows : Bool) (fetched : Except String (List Build))
    (buildNumber : Int) (cacheHit : Bool) : List BinAction × Except String Build :=
  match fetched with
  | .error e => ([.fetchBuilds], .error ("failed to fetch builds: " ++ e))
  | .ok builds =>
    match builds.find? (fun b => b.number == buildNumber) with
    | none => ([.fetchBuilds], .error ("build " ++ toString buildNumber ++ " not found"))
    | some b =>
      if cacheHit then
        ([.fetchBuilds, .cacheGet buildNumber, .cacheCopy], .ok b)
      else
        ([.fetchBuilds, .cacheGet buildNumber, .download (getDownloadURL isWindows b),
          .extract, .copyBin, .cacheAdd b.number], .ok b)

/-- Step 3 of `Installer.Install`: `installBinary`'s trace, with its
error wrapped as `failed to install FXServer: ...`. -/
def installStep3 (isWindows : Bool) (fetched : Except String (List Build))
    (buildNumber : Int) (cacheHit : Bool) : List BinAction × Option String :=
  let r := installBinaryGo isWindows fetched buildNumber cacheHit
  match r.2 with
  | .error e => (r.1, some ("failed to install FXServer: " ++ e))
  | .ok _ => (r.1, none)

/-- One entry of `os.ReadDir`'s result. -/
structure DirEntry where
  name : String
  isDir : Bool
deriving DecidableEq, Repr

/-- `findBinaryDir`: if the extraction root holds exactly one entry,
that entry is a directory, and that directory itself holds more than one
entry, descend into it; otherwise (including read errors) keep the
extraction root.  `readDir` models `os.ReadDir` (`none` = error). -/
def findBinaryDir (readDir : String → Option (List DirEntry)) (extractPath : String) : String :=
  match readDir extractPath with
  | none => extractPath
  | some entries =>
    match entries with
    | [e] =>
      if e.isDir then
        let nestedPath := filepathJoin extractPath e.name
        match readDir nestedPath with
        | some nested => if nested.length > 1 then nestedPath else extractPath
        | none => extractPath
      else extractPath
    | _ => extractPath

/-! ### Installation progress (`Installer.Install` callbacks)

The Go code computes progress in `float64`.  We model a progress value
as `FloatQ`: a finite value carried exactly as a rational, or `±Inf` /
`NaN` as produced by IEEE division by zero.  On finite values every
operation involved (division by a positive value, multiplication by
`0.15`, addition of `0.30` — each correctly rounded and monotone)
preserves order, so order relations proved on the rational carriers
transfer to the floats; the infinite/NaN cases arise exactly where the
installer divides by a zero `TotalBytes` (the size-unknown streaming
path) and are modelled explicitly, with the IEEE rule that comparisons
involving `NaN` are false. -/

/-- A `float64` progress value as the installer's arithmetic can
produce it. -/
inductive FloatQ
  | finite (q : ℚ)
  | posInf
  | negInf
  | nan
deriving DecidableEq, Repr

/-- IEEE `float64` division for the operands the installer produces
(`float64(DownloadedBytes) / float64(TotalBytes)`): division by zero
yields `±Inf` for a non-zero dividend and `NaN` for `0/0`. -/
def fdiv (a b : ℚ) : FloatQ :=
  if b = 0 then (if 0 < a then .posInf else if a < 0 then .negInf else .nan)
  else .finite (a / b)

/-- Multiplication by the positive constant `0.15`. -/
def fscale (x : FloatQ) (c : ℚ) : FloatQ :=
  match x with
  | .finite q => .finite (q * c)
  | .posInf => .posInf
  | .negInf => .negInf
  | .nan => .nan

/-- Addition of the finite constant `0.30`. -/
def fadd (c : ℚ) (x : FloatQ) : FloatQ :=
  match x with
  | .finite q => .finite (c + q)
  | .posInf => .posInf
  | .negInf => .negInf
  | .nan => .nan

/-- IEEE `<=` on `float64` values: any comparison involving `NaN` is
false; `-Inf` is below and `+Inf` above every non-`NaN` value. -/
def FloatQ.le : FloatQ → FloatQ → Bool
  | .nan, _ => false
  | _, .nan => false
  | .negInf, _ => true
  | _, .negInf => false
  | _, .posInf => true
  | .posInf, _ => false
  | .finite a, .finite b => a ≤ b

/-- IEEE `<` on `float64` values. -/
def FloatQ.lt : FloatQ → FloatQ → Bool
  | .nan, _ => false
  | _, .nan => false
  | .negInf, .negInf => false
  | .negInf, _ => true
  | _, .negInf => false
  | .posInf, _ => false
  | _, .posInf => true
  | .finite a, .finite b => a < b

/-- One `download.Progress` snapshot as delivered to the `Download`
callback. -/
structure DLProgress where
  totalBytes : Int
  downloadedBytes : Int
  speed : ℚ
  eta : Int
deriving DecidableEq, Repr

/-- `server.InstallProgress`. -/
structure InstallProgress where
  step : String
  progress : FloatQ
  downloadSpeed : ℚ
  downloadETA : Int
  currentFile : String
  totalSteps : Int
  completedSteps : Int
deriving DecidableEq, Repr

/-- An `InstallProgress` report with only step/progress/counters set
(the other fields are Go zero values); the progress literals the
installer hard-codes are all finite. -/
def baseReport (step : String) (progress : ℚ) (total completed : Int) : InstallProgress :=
  { step := step, progress := .finite progress, downloadSpeed := 0, downloadETA := 0,
    currentFile := "", totalSteps := total, completedSteps := completed }

/-- The report issued from inside the `Download` progress callback:
`downloadProgress := float64(p.DownloadedBytes) / float64(p.TotalBytes) * 0.15`
and `Progress: 0.30 + downloadProgress` — `+Inf`/`NaN` when a snapshot
carries `TotalBytes = 0`. -/
def downloadCallbackReport (buildNumber : Int) (p : DLProgress) : InstallProgress :=
  { step := "Downloading FXServer",
    progress := fadd 0.30 (fscale (fdiv (p.downloadedBytes : ℚ) (p.totalBytes : ℚ)) 0.15),
    downloadSpeed := p.speed, downloadETA := p.eta,
    currentFile := "Build " ++ toString buildNumber,
    totalSteps := 7, completedSteps := 3 }

/-- The sequence of reports issued by `Installer.installBinary` on its
success paths: the fetch report, then either the cache-copy report or
the download callbacks followed by the extraction report.  `dl` is the
sequence of snapshots the downloader delivers. -/
def installBinaryReports (buildNumber : Int) (cacheHit : Bool) (dl : List DLProgress) :
    List InstallProgress :=
  baseReport "Fetching build information" 0.30 7 2 ::
    (if cacheHit then
      [{ baseReport "Copying from cache" 0.35 7 2 with
           currentFile := "Build " ++ toString buildNumber ++ " (cached)" }]
    else
      dl.map (downloadCallbackReport buildNumber) ++ [baseReport "Extracting archive" 0.45 7 3])

/-- The full sequence of `onProgress` reports of one successful
`Installer.Install` call, in program order. -/
def installReports (buildNumber : Int) (cacheHit : Bool) (dl : List DLProgress) :
    List InstallProgress :=
  baseReport "Validating configuration" 0 8 0 ::
  baseReport "Creating directories" 0.14 8 1 ::
  baseReport "Checking cache for FXServer build" 0.28 8 2 ::
  (installBinaryReports buildNumber cacheHit dl ++
    [baseReport "Cloning cfx-server-data" 0.57 8 4,
     baseReport "Creating server metadata" 0.625 8 5,
     baseReport "Generating server.cfg" 0.75 8 6,
     baseReport "Creating launch script" 0.875 8 7,
     baseReport "Registering server" 1.0 8 8])

/-! ## Theorems

First, the theory of the embedded insertion sort: the imperative
sift/loop form equals a functional right-insertion fold, which is a
sorted, stable permutation. -/

theorem lswap_cons {α : Type} (c : α) (l : List α) (i j : Nat) :
    lswap (c :: l) (i + 1) (j + 1) = c :: lswap l i j := by
  unfold lswap
  cases h1 : l[i]? <;> cases h2 : l[j]? <;>
    simp [List.getElem?_cons_succ, h1, h2, List.set]


theorem lswap_append {α : Type} (s : List α) (a b : α) (t : List α) :
    lswap (s ++ a :: b :: t) s.length (s.length + 1) = s ++ b :: a :: t := by
  induction s with
  | nil => simp [lswap, List.set]
  | cons c s ih => simp [List.cons_append, lswap_cons, ih]

theorem insertR_append_pos {α : Type} (lt : α → α → Bool) (x y : α) (h : lt x y = true)
    (s : List α) : insertR lt x (s ++ [y]) = insertR lt x s ++ [y] := by
  induction s with
  | nil => simp [insertR, h]
  | cons z s ih =>
    cases hz : lt x z with
    | false => simp [insertR, hz, ih]
    | true =>
      cases hs : (s.all fun w => lt x w) with
      | false => simp [insertR, List.all_append, hz, hs, h, ih]
      | true => simp [insertR, List.all_append, hz, hs, h]

theorem insertR_append_neg {α : Type} (lt : α → α → Bool) (x y : α) (h : lt x y = false)
    (s : List α) : insertR lt x (s ++ [y]) = s ++ [y, x] := by
  induction s with
  | nil => simp [insertR, h]
  | cons z s ih => simp [insertR, List.all_append, h, ih]

theorem sift_append {α : Type} (lt : α → α → Bool) (s : List α) :
    ∀ (x : α) (r : List α), sift lt (s ++ x :: r) s.length = insertR lt x s ++ r := by
  induction s using List.reverseRecOn with
  | nil => intro x r; rfl
  | append_singleton s y ih =>
    intro x r
    have hshape : (s ++ [y]) ++ x :: r = s ++ y :: x :: r := by simp
    have hlen : (s ++ [y]).length = s.length + 1 := by simp
    rw [hshape, hlen]
    have hx : (s ++ y :: x :: r)[s.length + 1]? = some x := by
      rw [List.getElem?_append_right (by omega)]
      simp
    have hy : (s ++ y :: x :: r)[s.length]? = some y := by
      rw [List.getElem?_append_right (le_refl _)]
      simp
    simp only [sift, hx, hy]
    by_cases hlt : lt x y = true
    · rw [if_pos hlt, lswap_append, ih x (y :: r), insertR_append_pos lt x y hlt]
      simp
    · have hlt' : lt x y = false := by
        cases hval : lt x y with
        | true => exact absurd hval hlt
        | false => rfl
      rw [if_neg hlt, insertR_append_neg lt x y hlt']
      simp

theorem insertR_length {α : Type} (lt : α → α → Bool) (x : α) (s : List α) :
    (insertR lt x s).length = s.length + 1 := by
  induction s with
  | nil => rfl
  | cons y ys ih =>
    simp only [insertR]
    split <;> simp [ih]

theorem isortLoop_foldl {α : Type} (lt : α → α → Bool) :
    ∀ (r s : List α) (fuel : Nat), r.length ≤ fuel →
      isortLoop lt (s ++ r) s.length fuel = r.foldl (fun acc x => insertR lt x acc) s := by
  intro r
  induction r with
  | nil =>
    intro s fuel _
    cases fuel with
    | zero => simp [isortLoop]
    | succ f => simp [isortLoop]
  | cons x r ih =>
    intro s fuel hf
    cases fuel with
    | zero => exact absurd hf (by simp)
    | succ f =>
      have hlt : s.length < (s ++ x :: r).length := by simp
      simp only [isortLoop, if_pos hlt, List.foldl_cons]
      rw [sift_append]
      rw [show s.length + 1 = (insertR lt x s).length from (insertR_length lt x s).symm]
      exact ih (insertR lt x s) f (by simpa using hf)

theorem insertionSortGo_eq {α : Type} (lt : α → α → Bool) (l : List α) :
    insertionSortGo lt l = insertionSortFun lt l := by
  cases l with
  | nil => rfl
  | cons x r =>
    unfold insertionSortGo insertionSortFun
    have key := isortLoop_foldl lt r [x] (r.length + 1) (by omega)
    simpa [insertR] using key

theorem insertR_perm {α : Type} (lt : α → α → Bool) (x : α) (s : List α) :
    (insertR lt x s).Perm (x :: s) := by
  induction s with
  | nil => exact List.Perm.refl _
  | cons y ys ih =>
    simp only [insertR]
    split
    · exact List.Perm.refl _
    · exact (ih.cons y).trans (List.Perm.swap x y ys)

theorem foldl_insertR_perm {α : Type} (lt : α → α → Bool) :
    ∀ (l acc : List α), (l.foldl (fun a x => insertR lt x a) acc).Perm (acc ++ l) := by
  intro l
  induction l with
  | nil => intro acc; simp
  | cons x r ih =>
    intro acc
    simp only [List.foldl_cons]
    refine (ih _).trans ?_
    refine ((insertR_perm lt x acc).append_right r).trans ?_
    exact List.perm_middle.symm

theorem insertionSortGo_perm {α : Type} (lt : α → α → Bool) (l : List α) :
    (insertionSortGo lt l).Perm l := by
  rw [insertionSortGo_eq]
  simpa using foldl_insertR_perm lt l []

theorem sortByLastUsed_perm (l : List CachedBuild) : (sortByLastUsed l).Perm l :=
  insertionSortGo_perm ltLastUsed l

theorem sortByLastUsed_length (l : List CachedBuild) : (sortByLastUsed l).length = l.length :=
  (sortByLastUsed_perm l).length_eq

theorem insertR_sorted (x : CachedBuild) (s : List CachedBuild)
    (hs : s.Pairwise (fun a b => a.lastUsed ≤ b.lastUsed)) :
    (insertR ltLastUsed x s).Pairwise (fun a b => a.lastUsed ≤ b.lastUsed) := by
  induction s with
  | nil => simp [insertR]
  | cons y ys ih =>
    rcases List.pairwise_cons.mp hs with ⟨hy, hys⟩
    simp only [insertR]
    by_cases hc : (ltLastUsed x y && ys.all fun z => ltLastUsed x z) = true
    · rw [if_pos hc]
      rcases Bool.and_eq_true_iff.mp hc with ⟨h1, h2⟩
      refine List.pairwise_cons.mpr ⟨?_, hs⟩
      intro b hb
      rcases List.mem_cons.mp hb with rfl | hb
      · exact le_of_lt (by simpa [ltLastUsed] using h1)
      · have hall := List.all_eq_true.mp h2 b hb
        exact le_of_lt (by simpa [ltLastUsed] using hall)
    · rw [if_neg hc]
      refine List.pairwise_cons.mpr ⟨?_, ih hys⟩
      intro b hb
      have hb' : b = x ∨ b ∈ ys := by
        simpa using (insertR_perm ltLastUsed x ys).mem_iff.mp hb
      rcases hb' with rfl | hb'
      · by_cases h1 : ltLastUsed b y = true
        · have h2 : (ys.all fun z => ltLastUsed b z) = false := by
            cases hall : (ys.all fun z => ltLastUsed b z) with
            | true => exact absurd (by simp [h1, hall]) hc
            | false => rfl
          have : ∃ z ∈ ys, ¬ ltLastUsed b z = true := by
            simpa using List.all_eq_false.mp h2
          rcases this with ⟨z, hz, hzf⟩
          have hzx : z.lastUsed ≤ b.lastUsed := by
            simpa [ltLastUsed, not_lt] using hzf
          exact le_trans (hy z hz) hzx
        · have : ¬ b.lastUsed < y.lastUsed := by simpa [ltLastUsed] using h1
          exact le_of_not_lt this
      · exact hy b hb'

theorem foldl_insertR_sorted :
    ∀ (l acc : List CachedBuild), acc.Pairwise (fun a b => a.lastUsed ≤ b.lastUsed) →
      (l.foldl (fun a x => insertR ltLastUsed x a) acc).Pairwise
        (fun a b => a.lastUsed ≤ b.lastUsed) := by
  intro l
  induction l with
  | nil => intro acc h; simpa using h
  | cons x r ih =>
    intro acc h
    simp only [List.foldl_cons]
    exact ih _ (insertR_sorted x acc h)

theorem sortByLastUsed_sorted (l : List CachedBuild) :
    (sortByLastUsed l).Pairwise (fun a b => a.lastUsed ≤ b.lastUsed) := by
  unfold sortByLastUsed
  rw [insertionSortGo_eq]
  exact foldl_insertR_sorted l [] (by simp)

theorem insertR_filter (x : CachedBuild) (s : List CachedBuild) (k : Int) :
    (insertR ltLastUsed x s).filter (fun b => b.lastUsed == k) =
      (if x.lastUsed == k then s.filter (fun b => b.lastUsed == k) ++ [x]
       else s.filter (fun b => b.lastUsed == k)) := by
  induction s with
  | nil =>
    by_cases hx : (x.lastUsed == k) = true <;> simp [insertR, List.filter, hx]
  | cons y ys ih =>
    simp only [insertR]
    by_cases hc : (ltLastUsed x y && ys.all fun z => ltLastUsed x z) = true
    · rw [if_pos hc]
      rcases Bool.and_eq_true_iff.mp hc with ⟨h1, h2⟩
      by_cases hx : (x.lastUsed == k) = true
      · have hk : x.lastUsed = k := by simpa using hx
        have hempty : (y :: ys).filter (fun b => b.lastUsed == k) = [] := by
          rw [List.filter_eq_nil_iff]
          intro b hb
          rcases List.mem_cons.mp hb with rfl | hb
          · have : x.lastUsed < b.lastUsed := by simpa [ltLastUsed] using h1
            simp only [beq_iff_eq]
            omega
          · have hall := List.all_eq_true.mp h2 b hb
            have : x.lastUsed < b.lastUsed := by simpa [ltLastUsed] using hall
            simp only [beq_iff_eq]
            omega
        simp [List.filter_cons, hx, hempty]
      · simp [List.filter_cons, hx]
    · rw [if_neg hc]
      by_cases hy : (y.lastUsed == k) = true <;>
        by_cases hx : (x.lastUsed == k) = true <;>
          simp [List.filter_cons, hy, hx, ih]

theorem foldl_insertR_filter (k : Int) :
    ∀ (l acc : List CachedBuild),
      (l.foldl (fun a x => insertR ltLastUsed x a) acc).filter (fun b => b.lastUsed == k) =
        acc.filter (fun b => b.lastUsed == k) ++ l.filter (fun b => b.lastUsed == k) := by
  intro l
  induction l with
  | nil => intro acc; simp
  | cons x r ih =>
    intro acc
    simp only [List.foldl_cons]
    rw [ih, insertR_filter]
    by_cases hx : (x.lastUsed == k) = true <;> simp [List.filter_cons, hx]

theorem sortByLastUsed_filter (l : List CachedBuild) (k : Int) :
    (sortByLastUsed l).filter (fun b => b.lastUsed == k) =
      l.filter (fun b => b.lastUsed == k) := by
  unfold sortByLastUsed
  rw [insertionSortGo_eq]
  simpa using foldl_insertR_filter k l []

/-! Metadata-level lemmas about removal, eviction and the size
invariant. -/

theorem removeFirst_cons_self (b : CachedBuild) (rest : List CachedBuild) :
    removeFirst b.number (b :: rest) = (rest, b.size) := by
  simp [removeFirst]

theorem removeFirst_sum (n : Int) :
    ∀ l : List CachedBuild,
      (((removeFirst n l).1.map CachedBuild.size).sum : Int) =
        ((l.map CachedBuild.size).sum : Int) - (removeFirst n l).2 := by
  intro l
  induction l with
  | nil => simp [removeFirst]
  | cons b rest ih =>
    by_cases h : b.number = n
    · simp [removeFirst, h]
    · simp only [removeFirst, if_neg h, List.map_cons, List.sum_cons]
      omega

theorem removeBuild_invariant (m : Metadata) (n : Int) (h : sizeInvariant m) :
    sizeInvariant (removeBuild m n) := by
  unfold sizeInvariant removeBuild at *
  simp only
  rw [removeFirst_sum]
  omega

theorem dropOldest_builds :
    ∀ (k : Nat) (m : Metadata), (dropOldest m k).builds = m.builds.drop k := by
  intro k
  induction k with
  | zero => intro m; simp [dropOldest]
  | succ j ih =>
    intro m
    cases hb : m.builds with
    | nil => simp [dropOldest, hb]
    | cons b rest =>
      simp only [dropOldest, hb]
      rw [ih]
      have hrb : (removeBuild m b.number).builds = rest := by
        simp [removeBuild, hb, removeFirst_cons_self]
      rw [hrb, List.drop_succ_cons]

theorem dropOldest_invariant :
    ∀ (k : Nat) (m : Metadata), sizeInvariant m → sizeInvariant (dropOldest m k) := by
  intro k
  induction k with
  | zero => intro m h; simpa [dropOldest] using h
  | succ j ih =>
    intro m h
    cases hb : m.builds with
    | nil => simpa [dropOldest, hb] using h
    | cons b rest =>
      simp only [dropOldest, hb]
      exact ih _ (removeBuild_invariant m b.number h)

theorem sortByLastUsed_sum (l : List CachedBuild) :
    ((sortByLastUsed l).map CachedBuild.size).sum = (l.map CachedBuild.size).sum :=
  ((sortByLastUsed_perm l).map CachedBuild.size).sum_eq

theorem enforceLimits_invariant (mx : Int) (m : Metadata) (h : sizeInvariant m) :
    sizeInvariant (enforceLimits mx m) := by
  unfold enforceLimits
  split
  · exact h
  · apply dropOldest_invariant
    unfold sizeInvariant at *
    simpa [sortByLastUsed_sum] using h

theorem enforceLimits_length (mx : Int) (m : Metadata) (h0 : 0 ≤ mx) :
    ((enforceLimits mx m).builds.length : Int) = min ((m.builds.length : Int)) mx := by
  unfold enforceLimits
  split
  · omega
  · rw [dropOldest_builds]
    simp only [List.length_drop, sortByLastUsed_length]
    have hgt : mx < (m.builds.length : Int) := by omega
    have hk : ((((m.builds.length : Int) - mx).toNat : Nat) : Int) =
        (m.builds.length : Int) - mx := Int.toNat_of_nonneg (by omega)
    have h2 : (((m.builds.length : Int) - mx).toNat : Nat) ≤ m.builds.length := by omega
    rw [Nat.cast_sub h2, hk]
    omega

theorem add_maxBuilds (c : BinaryCache) (b : Build) (sz now : Int) :
    (c.add b sz now).maxBuilds = c.maxBuilds := rfl

theorem add_metadata (c : BinaryCache) (b : Build) (sz now : Int) :
    (c.add b sz now).metadata =
      enforceLimits c.maxBuilds
        { c.metadata with builds := c.metadata.builds ++ [mkCachedBuild b sz now],
                          totalSize := c.metadata.totalSize + sz } := rfl

theorem add_length (c : BinaryCache) (b : Build) (sz now : Int) (h : 0 ≤ c.maxBuilds) :
    ((c.add b sz now).metadata.builds.length : Int) =
      min ((c.metadata.builds.length : Int) + 1) c.maxBuilds := by
  rw [add_metadata, enforceLimits_length _ _ h]
  simp only [List.length_append, List.length_cons, List.length_nil]
  push_cast
  omega

theorem foldl_add_length (K : Int) :
    ∀ (inserts : List (Build × Int × Int)) (c : BinaryCache),
      1 ≤ K → c.maxBuilds = K → (c.metadata.builds.length : Int) ≤ K →
      (((inserts.foldl (fun c t => c.add t.1 t.2.1 t.2.2) c).metadata.builds.length : Int)) =
        min ((c.metadata.builds.length : Int) + inserts.length) K := by
  intro inserts
  induction inserts with
  | nil =>
    intro c hK hc hlen
    simp only [List.foldl_nil, List.length_nil]
    omega
  | cons t rest ih =>
    intro c hK hc hlen
    simp only [List.foldl_cons, List.length_cons]
    have h0 : (0 : Int) ≤ c.maxBuilds := by omega
    have hstep := add_length c t.1 t.2.1 t.2.2 h0
    have hmx : (c.add t.1 t.2.1 t.2.2).maxBuilds = K := by rw [add_maxBuilds, hc]
    have hle : ((c.add t.1 t.2.1 t.2.2).metadata.builds.length : Int) ≤ K := by
      rw [hstep, hc]; omega
    rw [ih _ hK hmx hle, hstep, hc]
    push_cast
    omega

theorem enforceLimits_evict_one (mx : Int) (m : Metadata)
    (h : (m.builds.length : Int) = mx + 1) (hmx : 0 ≤ mx) :
    ∃ hd tl, sortByLastUsed m.builds = hd :: tl ∧ (enforceLimits mx m).builds = tl := by
  have hsl : (sortByLastUsed m.builds).length = m.builds.length := sortByLastUsed_length _
  obtain ⟨hd, tl, hcons⟩ : ∃ hd tl, sortByLastUsed m.builds = hd :: tl := by
    cases hS : sortByLastUsed m.builds with
    | nil =>
      exfalso
      rw [hS] at hsl
      simp only [List.length_nil] at hsl
      omega
    | cons hd tl => exact ⟨hd, tl, rfl⟩
  refine ⟨hd, tl, hcons, ?_⟩
  unfold enforceLimits
  rw [if_neg (by omega)]
  simp only
  rw [dropOldest_builds]
  have hk : (((m.builds.length : Int) - mx).toNat) = 1 := by omega
  rw [hk, hcons, List.drop_succ_cons, List.drop_zero]

theorem zip_self_diag {α : Type} : ∀ (l : List α), ∀ p ∈ l.zip l, p.1 = p.2 := by
  intro l
  induction l with
  | nil => intro p hp; simp at hp
  | cons x r ih =>
    intro p hp
    rcases List.mem_cons.mp hp with rfl | hp'
    · rfl
    · exact ih p hp'

theorem updateLastUsed_proj (n now : Int) :
    ∀ l : List CachedBuild,
      (updateLastUsed n now l).map
          (fun b => (b.number, b.hash, b.downloaded, b.size, b.recommended, b.optional)) =
        l.map (fun b => (b.number, b.hash, b.downloaded, b.size, b.recommended, b.optional)) := by
  intro l
  induction l with
  | nil => rfl
  | cons b rest ih =>
    by_cases h : b.number = n <;> simp [updateLastUsed, h, ih]

theorem updateLastUsed_sizes (n now : Int) :
    ∀ l : List CachedBuild,
      (updateLastUsed n now l).map CachedBuild.size = l.map CachedBuild.size := by
  intro l
  induction l with
  | nil => rfl
  | cons b rest ih =>
    by_cases h : b.number = n <;> simp [updateLastUsed, h, ih]

theorem updateLastUsed_length (n now : Int) (l : List CachedBuild) :
    (updateLastUsed n now l).length = l.length := by
  have := congrArg List.length (updateLastUsed_sizes n now l)
  simpa using this

theorem updateLastUsed_tie (n now : Int) :
    ∀ l : List CachedBuild, ∀ p ∈ l.zip (updateLastUsed n now l),
      p.1.lastUsed ≠ p.2.lastUsed → p.1.number = n := by
  intro l
  induction l with
  | nil => intro p hp; simp at hp
  | cons b rest ih =>
    intro p hp
    by_cases h : b.number = n
    · simp only [updateLastUsed, if_pos h, List.zip_cons_cons] at hp
      rcases List.mem_cons.mp hp with rfl | hp'
      · intro _; exact h
      · have hdiag := zip_self_diag rest p hp'
        intro hne
        exact absurd (congrArg CachedBuild.lastUsed hdiag) hne
    · simp only [updateLastUsed, if_neg h, List.zip_cons_cons] at hp
      rcases List.mem_cons.mp hp with rfl | hp'
      · intro hne; exact absurd rfl hne
      · exact ih p hp'

/-- C1: after every successful `BinaryCache.Add` the metadata holds at
most `maxBuilds` entries; inserting K+1 builds sequentially into a fresh
cache with limit K leaves exactly K entries; and when an insertion
evicts, the removed entry is one whose `lastUsed` is oldest at the
moment of eviction (the new entry included), the surviving entries being
exactly the rest. -/
theorem c1_add_bounded_evicts_oldest :
    (∀ (c : BinaryCache) (b : Build) (sz now : Int), 1 ≤ c.maxBuilds →
        ((c.add b sz now).metadata.builds.length : Int) ≤ c.maxBuilds) ∧
    (∀ (K : Int) (inserts : List (Build × Int × Int)), 1 ≤ K →
        (inserts.length : Int) = K + 1 →
        (((inserts.foldl (fun c t => c.add t.1 t.2.1 t.2.2)
            (newBinaryCache K none)).metadata.builds.length : Int)) = K) ∧
    (∀ (c : BinaryCache) (b : Build) (sz now : Int), 1 ≤ c.maxBuilds →
        (c.metadata.builds.length : Int) = c.maxBuilds →
        ∃ ev : CachedBuild,
          ev ∈ c.metadata.builds ++ [mkCachedBuild b sz now] ∧
          (∀ x ∈ c.metadata.builds ++ [mkCachedBuild b sz now], ev.lastUsed ≤ x.lastUsed) ∧
          ev ::ₘ ((c.add b sz now).metadata.builds : Multiset CachedBuild) =
            ((c.metadata.builds ++ [mkCachedBuild b sz now] : List CachedBuild) :
              Multiset CachedBuild)) := by
  refine ⟨?_, ?_, ?_⟩
  · intro c b sz now h
    rw [add_length c b sz now (by omega)]
    omega
  · intro K inserts hK hlen
    have hmx : (newBinaryCache K none).maxBuilds = K := by
      simp only [newBinaryCache]
      rw [if_neg (by omega)]
    have h0 : ((newBinaryCache K none).metadata.builds.length : Int) ≤ K := by
      simp only [newBinaryCache, Option.getD_none]
      simp
      omega
    rw [foldl_add_length K inserts _ hK hmx h0]
    simp only [newBinaryCache, Option.getD_none]
    simp
    omega
  · intro c b sz now hK hfull
    have hlenL : (((c.metadata.builds ++ [mkCachedBuild b sz now]).length : Nat) : Int) =
        c.maxBuilds + 1 := by
      simp only [List.length_append, List.length_cons, List.length_nil]
      push_cast
      omega
    obtain ⟨hd, tl, hcons, hel⟩ := enforceLimits_evict_one c.maxBuilds
      { c.metadata with builds := c.metadata.builds ++ [mkCachedBuild b sz now],
                        totalSize := c.metadata.totalSize + sz }
      (by simpa using hlenL) (by omega)
    refine ⟨hd, ?_, ?_, ?_⟩
    · have hmem : hd ∈ sortByLastUsed (c.metadata.builds ++ [mkCachedBuild b sz now]) := by
        rw [hcons]
        exact List.mem_cons_self hd tl
      exact (sortByLastUsed_perm _).mem_iff.mp hmem
    · intro x hx
      have hsort := sortByLastUsed_sorted (c.metadata.builds ++ [mkCachedBuild b sz now])
      rw [hcons] at hsort
      have hx' : x ∈ hd :: tl := by
        rw [← hcons]
        exact ((sortByLastUsed_perm _).mem_iff).mpr hx
      rcases List.mem_cons.mp hx' with rfl | hx'
      · exact le_refl _
      · exact (List.pairwise_cons.mp hsort).1 x hx'
    · have hb : (c.add b sz now).metadata.builds = tl := by
        rw [add_metadata]
        exact hel
      rw [hb]
      have h1 : hd ::ₘ ((tl : List CachedBuild) : Multiset CachedBuild) =
          ((hd :: tl : List CachedBuild) : Multiset CachedBuild) := rfl
      rw [h1, ← hcons]
      exact Multiset.coe_eq_coe.mpr (sortByLastUsed_perm _)

/-- Witness for C1 at concrete inputs (limit 2 for the bound, limit 1
with two inserts for the K+1 scenario, a full one-entry cache for the
eviction step). -/
theorem c1_add_bounded_evicts_oldest_witness :
    ((((newBinaryCache 2 none).add ⟨7, "h", 0, false, false, 0⟩ 5 1).metadata.builds.length :
        Int) ≤ 2) ∧
    ((([(⟨1, "a", 0, false, false, 0⟩, 5, 1), (⟨2, "b", 0, false, false, 0⟩, 6, 2)] :
        List (Build × Int × Int)).foldl (fun c t => c.add t.1 t.2.1 t.2.2)
        (newBinaryCache 1 none)).metadata.builds.length : Int) = 1 ∧
    (∃ ev : CachedBuild,
      ev ∈ (⟨⟨1, [⟨1, "x", 0, 5, false, false, 1⟩], 1, 5⟩, 1⟩ : BinaryCache).metadata.builds ++
          [mkCachedBuild ⟨2, "y", 0, false, false, 0⟩ 6 9] ∧
      (∀ x ∈ (⟨⟨1, [⟨1, "x", 0, 5, false, false, 1⟩], 1, 5⟩, 1⟩ :
          BinaryCache).metadata.builds ++ [mkCachedBuild ⟨2, "y", 0, false, false, 0⟩ 6 9],
        ev.lastUsed ≤ x.lastUsed) ∧
      ev ::ₘ (((⟨⟨1, [⟨1, "x", 0, 5, false, false, 1⟩], 1, 5⟩, 1⟩ :
            BinaryCache).add ⟨2, "y", 0, false, false, 0⟩ 6 9).metadata.builds :
          Multiset CachedBuild) =
        (((⟨⟨1, [⟨1, "x", 0, 5, false, false, 1⟩], 1, 5⟩, 1⟩ :
            BinaryCache).metadata.builds ++ [mkCachedBuild ⟨2, "y", 0, false, false, 0⟩ 6 9] :
          List CachedBuild) : Multiset CachedBuild)) :=
  ⟨c1_add_bounded_evicts_oldest.1 (newBinaryCache 2 none) ⟨7, "h", 0, false, false, 0⟩ 5 1
      (by norm_num [newBinaryCache]),
   c1_add_bounded_evicts_oldest.2.1 1 _ (by norm_num) (by norm_num),
   c1_add_bounded_evicts_oldest.2.2 ⟨⟨1, [⟨1, "x", 0, 5, false, false, 1⟩], 1, 5⟩, 1⟩
      ⟨2, "y", 0, false, false, 0⟩ 6 9 (by norm_num) (by norm_num)⟩

/-- C4 counterexample: a run of cache operations in which two entries
are tied on `lastUsed` (builds 1 and 3, both last used at time 6, build
1 inserted first) and the next insertion evicts build 3 — the
later-inserted entry — because the earlier eviction (of build 2)
permanently reordered the metadata list by `lastUsed`, placing build 3
before build 1.  So with ties the earlier-inserted entry is not the one
evicted first. -/
theorem c4_counterexample :
    (let s0 := newBinaryCache 3 none
     let s1 := s0.add ⟨1, "a", 0, false, false, 0⟩ 10 1
     let s2 := s1.add ⟨2, "b", 0, false, false, 0⟩ 10 2
     let s3 := s2.add ⟨3, "c", 0, false, false, 0⟩ 10 3
     let s4 := (s3.get 1 true 4).2
     let s5 := s4.add ⟨4, "d", 0, false, false, 0⟩ 10 5
     let s6 := (s5.get 3 true 6).2
     let s7 := (s6.get 1 true 6).2
     let s8 := (s7.get 4 true 8).2
     let s9 := s8.add ⟨5, "e", 0, false, false, 0⟩ 10 9
     s8.metadata.builds.map (fun b => (b.number, b.lastUsed)) = [(3, 6), (1, 6), (4, 8)] ∧
       s9.metadata.builds.map (fun b => (b.number, b.lastUsed)) = [(1, 6), (4, 8), (5, 9)]) := by
  decide

/-- C4 (amended): the eviction sort does preserve the relative order
of entries with identical `lastUsed` timestamps as they stand in the
metadata list at sort time (here for the up-to-12-entry slices on which
Go's `sort.Slice` provably runs its stable insertion-sort path); but
the metadata list order is not insertion order — earlier evictions
reorder the list by `lastUsed` — so the earlier-inserted entry of a
tied pair is not necessarily the one evicted first. -/
theorem c4_sort_stable_on_list_order (l : List CachedBuild) (k : Int)
    (_hlen : l.length ≤ 12) :
    (sortByLastUsed l).filter (fun b => b.lastUsed == k) =
      l.filter (fun b => b.lastUsed == k) :=
  sortByLastUsed_filter l k

/-- Witness for the amended C4 statement on a concrete 3-entry list with
a tie at timestamp 5. -/
theorem c4_sort_stable_on_list_order_witness :
    (sortByLastUsed [⟨1, "a", 0, 0, false, false, 5⟩, ⟨2, "b", 0, 0, false, false, 3⟩,
        ⟨3, "c", 0, 0, false, false, 5⟩]).filter (fun b => b.lastUsed == 5) =
      ([⟨1, "a", 0, 0, false, false, 5⟩, ⟨2, "b", 0, 0, false, false, 3⟩,
        ⟨3, "c", 0, 0, false, false, 5⟩] : List CachedBuild).filter (fun b => b.lastUsed == 5) :=
  c4_sort_stable_on_list_order _ 5 (by norm_num)

/-- C5: every cache operation (`Add`, `Remove`, `Clear`, `Get`)
preserves the invariant that `totalSize` equals the sum of the `Size`
fields of the metadata entries. -/
theorem c5_totalSize_invariant :
    (∀ (c : BinaryCache) (b : Build) (sz now : Int), sizeInvariant c.metadata →
        sizeInvariant (c.add b sz now).metadata) ∧
    (∀ (c : BinaryCache) (n : Int), sizeInvariant c.metadata →
        sizeInvariant (c.remove n).metadata) ∧
    (∀ c : BinaryCache, sizeInvariant c.clear.metadata) ∧
    (∀ (c : BinaryCache) (n : Int) (onDisk : Bool) (now : Int), sizeInvariant c.metadata →
        sizeInvariant ((c.get n onDisk now).2.metadata)) := by
  refine ⟨?_, ?_, ?_, ?_⟩
  · intro c b sz now h
    rw [add_metadata]
    apply enforceLimits_invariant
    unfold sizeInvariant at *
    simp only [List.map_append, List.sum_append, List.map_cons, List.map_nil, List.sum_cons,
      List.sum_nil, mkCachedBuild]
    omega
  · intro c n h
    exact removeBuild_invariant c.metadata n h
  · intro c
    unfold sizeInvariant BinaryCache.clear
    simp
  · intro c n onDisk now h
    unfold BinaryCache.get
    by_cases hd : onDisk
    · simp only [if_pos hd]
      unfold sizeInvariant at *
      simpa [updateLastUsed_sizes] using h
    · simpa [if_neg hd] using h

/-- Witness for C5 on a concrete one-entry cache. -/
theorem c5_totalSize_invariant_witness :
    sizeInvariant ((⟨⟨1, [⟨1, "x", 0, 5, false, false, 1⟩], 3, 5⟩, 3⟩ : BinaryCache).add
        ⟨2, "y", 0, false, false, 0⟩ 7 2).metadata ∧
    sizeInvariant ((⟨⟨1, [⟨1, "x", 0, 5, false, false, 1⟩], 3, 5⟩, 3⟩ :
        BinaryCache).remove 1).metadata ∧
    sizeInvariant (⟨⟨1, [⟨1, "x", 0, 5, false, false, 1⟩], 3, 5⟩, 3⟩ :
        BinaryCache).clear.metadata ∧
    sizeInvariant (((⟨⟨1, [⟨1, "x", 0, 5, false, false, 1⟩], 3, 5⟩, 3⟩ :
        BinaryCache).get 1 true 9).2.metadata) :=
  ⟨c5_totalSize_invariant.1 _ ⟨2, "y", 0, false, false, 0⟩ 7 2 rfl,
   c5_totalSize_invariant.2.1 _ 1 rfl,
   c5_totalSize_invariant.2.2.1 _,
   c5_totalSize_invariant.2.2.2 _ 1 true 9 rfl⟩

/-- C9: for non-positive `maxBuilds`, `NewBinaryCache` behaves exactly
as if 3 had been passed: the constructed cache is identical,
`GetStats().MaxBuilds` is 3, and insertions keep at most 3 entries. -/
theorem c9_nonpositive_maxBuilds_defaults_to_3 (mb : Int) (existing : Option Metadata)
    (h : mb ≤ 0) :
    newBinaryCache mb existing = newBinaryCache 3 existing ∧
    (newBinaryCache mb existing).getStats.maxBuilds = 3 ∧
    (∀ (b : Build) (sz now : Int),
      (((newBinaryCache mb existing).add b sz now).metadata.builds.length : Int) ≤ 3) := by
  have hm : (newBinaryCache mb existing).maxBuilds = 3 := by
    simp only [newBinaryCache]
    rw [if_pos h]
  refine ⟨?_, ?_, ?_⟩
  · simp only [newBinaryCache]
    rw [if_pos h, if_neg (by norm_num : ¬ (3 : Int) ≤ 0)]
  · simp only [BinaryCache.getStats, hm]
  · intro b sz now
    rw [add_length _ b sz now (by rw [hm]; norm_num), hm]
    omega

/-- Witness for C9 at `maxBuilds = 0`. -/
theorem c9_nonpositive_maxBuilds_defaults_to_3_witness :
    newBinaryCache 0 none = newBinaryCache 3 none ∧
    (newBinaryCache 0 none).getStats.maxBuilds = 3 ∧
    (∀ (b : Build) (sz now : Int),
      (((newBinaryCache 0 none).add b sz now).metadata.builds.length : Int) ≤ 3) :=
  c9_nonpositive_maxBuilds_defaults_to_3 0 none (by norm_num)

/-- C10: `BinaryCache.Get` never adds or removes entries and never
changes `totalSize`, `maxBuilds` or the metadata version; every field of
every entry other than `lastUsed` is unchanged, and an entry whose
`lastUsed` changed has the requested build number. -/
theorem c10_get_frame (c : BinaryCache) (n : Int) (onDisk : Bool) (now : Int) :
    ((c.get n onDisk now).2.maxBuilds = c.maxBuilds) ∧
    ((c.get n onDisk now).2.metadata.totalSize = c.metadata.totalSize) ∧
    ((c.get n onDisk now).2.metadata.version = c.metadata.version) ∧
    ((c.get n onDisk now).2.metadata.maxBuilds = c.metadata.maxBuilds) ∧
    ((c.get n onDisk now).2.metadata.builds.length = c.metadata.builds.length) ∧
    ((c.get n onDisk now).2.metadata.builds.map
        (fun b => (b.number, b.hash, b.downloaded, b.size, b.recommended, b.optional)) =
      c.metadata.builds.map
        (fun b => (b.number, b.hash, b.downloaded, b.size, b.recommended, b.optional))) ∧
    (∀ p ∈ c.metadata.builds.zip (c.get n onDisk now).2.metadata.builds,
        p.1.lastUsed ≠ p.2.lastUsed → p.1.number = n) := by
  unfold BinaryCache.get
  by_cases h : onDisk
  · rw [if_pos h]
    exact ⟨rfl, rfl, rfl, rfl, updateLastUsed_length n now _, updateLastUsed_proj n now _,
      updateLastUsed_tie n now _⟩
  · rw [if_neg h]
    refine ⟨rfl, rfl, rfl, rfl, rfl, rfl, ?_⟩
    intro p hp hne
    exact absurd (congrArg CachedBuild.lastUsed (zip_self_diag _ p hp)) hne

/-- Witness for C10 on a concrete one-entry cache and a hit. -/
theorem c10_get_frame_witness :
    (((⟨⟨1, [⟨1, "x", 0, 5, false, false, 1⟩], 3, 5⟩, 3⟩ : BinaryCache).get 1 true
        9).2.maxBuilds = (3 : Int)) ∧
    (∀ p ∈ (⟨⟨1, [⟨1, "x", 0, 5, false, false, 1⟩], 3, 5⟩, 3⟩ :
          BinaryCache).metadata.builds.zip
        ((⟨⟨1, [⟨1, "x", 0, 5, false, false, 1⟩], 3, 5⟩, 3⟩ : BinaryCache).get 1 true
            9).2.metadata.builds,
      p.1.lastUsed ≠ p.2.lastUsed → p.1.number = 1) :=
  ⟨(c10_get_frame ⟨⟨1, [⟨1, "x", 0, 5, false, false, 1⟩], 3, 5⟩, 3⟩ 1 true 9).1,
   (c10_get_frame ⟨⟨1, [⟨1, "x", 0, 5, false, false, 1⟩], 3, 5⟩, 3⟩ 1 true 9).2.2.2.2.2.2⟩

/-- C3 (evidence of a code bug): the containment check is a bare string
prefix test on the cleaned path, so an entry escaping into a sibling
directory whose name extends the destination (`/tmp/x` vs `/tmp/x-evil`)
passes the check and is written outside `destPath` with no error —
while the claim's own example `../../etc/passwd` is rejected with
`illegal file path` and no write for it or any later entry. -/
theorem c3_traversal_prefix_check_bypassed :
    extractTarXz "/tmp/x" [⟨"../x-evil/pwn", TarType.reg, ""⟩] =
      ([FsWrite.mkdirAll "/tmp/x-evil", FsWrite.file "/tmp/x-evil/pwn"], none) ∧
    underDest "/tmp/x" "/tmp/x-evil/pwn" = false ∧
    extractTarXz "/tmp/x"
        [⟨"../../etc/passwd", TarType.reg, ""⟩, ⟨"ok.txt", TarType.reg, ""⟩] =
      ([], some "illegal file path: ../../etc/passwd") := by
  decide

/-- C7: the resolved binary root is the single nested directory exactly
when the extraction root lists exactly one entry, that entry is a
directory, and that directory's own (readable) contents number more
than one entry; in every other case the resolved root is the extraction
root itself. -/
theorem c7_findBinaryDir_characterization
    (readDir : String → Option (List DirEntry)) (p : String) :
    (∀ (e : DirEntry) (nested : List DirEntry), readDir p = some [e] → e.isDir = true →
        readDir (filepathJoin p e.name) = some nested → nested.length > 1 →
        findBinaryDir readDir p = filepathJoin p e.name) ∧
    ((¬ ∃ (e : DirEntry) (nested : List DirEntry), readDir p = some [e] ∧ e.isDir = true ∧
        readDir (filepathJoin p e.name) = some nested ∧ nested.length > 1) →
        findBinaryDir readDir p = p) := by
  constructor
  · intro e nested h1 h2 h3 h4
    simp [findBinaryDir, h1, h2, h3, h4]
  · intro hno
    unfold findBinaryDir
    cases hrd : readDir p with
    | none => rfl
    | some entries =>
      rcases entries with _ | ⟨e, rest⟩
      · rfl
      · rcases rest with _ | ⟨e2, rest2⟩
        · cases hdir : e.isDir with
          | false => simp [hdir]
          | true =>
            cases hn : readDir (filepathJoin p e.name) with
            | none => simp [hdir, hn]
            | some nested =>
              by_cases hlen : nested.length > 1
              · exact absurd ⟨e, nested, hrd, hdir, hn, hlen⟩ hno
              · simp [hdir, hn, hlen]
        · rfl

/-- Witness for C7: a wrapper directory `alpine` with two nested
entries is resolved to, and a root whose listing fails resolves to
itself. -/
theorem c7_findBinaryDir_characterization_witness :
    findBinaryDir
        (fun s => if s = "/e" then some [⟨"alpine", true⟩]
          else if s = "/e/alpine" then some [⟨"a", false⟩, ⟨"b", false⟩] else none)
        "/e" = "/e/alpine" ∧
    findBinaryDir
        (fun s => if s = "/e" then some [⟨"alpine", true⟩]
          else if s = "/e/alpine" then some [⟨"a", false⟩, ⟨"b", false⟩] else none)
        "/flat" = "/flat" := by
  constructor
  · have h := (c7_findBinaryDir_characterization
        (fun s => if s = "/e" then some [⟨"alpine", true⟩]
          else if s = "/e/alpine" then some [⟨"a", false⟩, ⟨"b", false⟩] else none)
        "/e").1 ⟨"alpine", true⟩ [⟨"a", false⟩, ⟨"b", false⟩] (by decide) (by decide)
        (by decide) (by decide)
    rw [h]
    decide
  · exact (c7_findBinaryDir_characterization _ "/flat").2
      (by rintro ⟨e, nested, h1, -, -, -⟩; simp at h1)

/-- C8: requesting a build number absent from the fetched listing makes
`installBinary` (and so step 3 of `Install`) fail with an error
mentioning `not found`, and the only action performed is the listing
fetch — no cache lookup, no download, and no copy of binaries. -/
theorem c8_install_missing_build_not_found (isWindows : Bool) (builds : List Build)
    (buildNumber : Int) (cacheHit : Bool)
    (habsent : ∀ b ∈ builds, b.number ≠ buildNumber) :
    installStep3 isWindows (Except.ok builds) buildNumber cacheHit =
      ([BinAction.fetchBuilds],
        some ("failed to install FXServer: " ++
          ("build " ++ toString buildNumber ++ " not found"))) ∧
    (∃ pre post, ("failed to install FXServer: " ++
        ("build " ++ toString buildNumber ++ " not found")) = pre ++ "not found" ++ post) ∧
    (∀ a ∈ (installStep3 isWindows (Except.ok builds) buildNumber cacheHit).1,
        a = BinAction.fetchBuilds) := by
  have hfind : builds.find? (fun b => b.number == buildNumber) = none := by
    rw [List.find?_eq_none]
    intro b hb
    simpa using habsent b hb
  have h1 : installStep3 isWindows (Except.ok builds) buildNumber cacheHit =
      ([BinAction.fetchBuilds],
        some ("failed to install FXServer: " ++
          ("build " ++ toString buildNumber ++ " not found"))) := by
    simp [installStep3, installBinaryGo, hfind]
  refine ⟨h1, ?_, ?_⟩
  · refine ⟨"failed to install FXServer: " ++ ("build " ++ toString buildNumber ++ " "),
      "", ?_⟩
    have hsp : (" not found" : String) = " " ++ "not found" := by decide
    simp only [hsp, String.append_assoc, String.append_empty]
  · rw [h1]
    intro a ha
    simpa using ha

/-- Witness for C8: build 99999 absent from a two-build listing. -/
theorem c8_install_missing_build_not_found_witness :
    installStep3 false (Except.ok [⟨16999, "16999-aa", 0, false, false, 0⟩,
        ⟨17000, "17000-bb", 0, true, false, 0⟩]) 99999 false =
      ([BinAction.fetchBuilds],
        some ("failed to install FXServer: " ++
          ("build " ++ toString (99999 : Int) ++ " not found"))) ∧
    (∃ pre post, ("failed to install FXServer: " ++
        ("build " ++ toString (99999 : Int) ++ " not found")) = pre ++ "not found" ++ post) ∧
    (∀ a ∈ (installStep3 false (Except.ok [⟨16999, "16999-aa", 0, false, false, 0⟩,
        ⟨17000, "17000-bb", 0, true, false, 0⟩]) 99999 false).1,
      a = BinAction.fetchBuilds) :=
  c8_install_missing_build_not_found false _ 99999 false (by decide)

theorem rangeGet_mid (data : List UInt8) (cs i : Nat) (hcs : 1 ≤ cs) :
    rangeGet data ((i : Int) * (cs : Int)) ((i : Int) * (cs : Int) + (cs : Int) - 1) =
      (data.drop (i * cs)).take cs := by
  unfold rangeGet
  rw [if_neg ?side]
  case side =>
    have h1 : (1 : Int) ≤ (cs : Int) := by exact_mod_cast hcs
    generalize (i : Int) * (cs : Int) = k
    omega
  have h1 : ((i : Int) * (cs : Int)).toNat = i * cs := by
    rw [show (i : Int) * (cs : Int) = ((i * cs : Nat) : Int) by push_cast; ring]
    exact Int.toNat_natCast _
  have h2 : ((i : Int) * (cs : Int) + (cs : Int) - 1 + 1 - (i : Int) * (cs : Int)).toNat = cs := by
    rw [show (i : Int) * (cs : Int) + (cs : Int) - 1 + 1 - (i : Int) * (cs : Int) =
      ((cs : Nat) : Int) by ring]
    exact Int.toNat_natCast _
  rw [h1, h2]

theorem rangeGet_last (data : List UInt8) (k : Nat) (hk : k < data.length) :
    rangeGet data ((k : Nat) : Int) ((data.length : Int) - 1) = data.drop k := by
  unfold rangeGet
  rw [if_neg (by omega)]
  have h1 : (((k : Nat) : Int)).toNat = k := Int.toNat_natCast _
  have h2 : ((data.length : Int) - 1 + 1 - ((k : Nat) : Int)).toNat = data.length - k := by
    omega
  rw [h1, h2]
  apply List.take_of_length_le
  simp

theorem chunks_prefix_join (data : List UInt8) (cs : Nat) :
    ∀ k : Nat, ((List.range k).map (fun i => (data.drop (i * cs)).take cs)).flatten =
      data.take (k * cs) := by
  intro k
  induction k with
  | zero => simp
  | succ k ih =>
    rw [List.range_succ, List.map_append, List.flatten_append]
    simp only [List.map_cons, List.map_nil, List.flatten_cons, List.flatten_nil,
      List.append_nil]
    rw [ih, show (k + 1) * cs = k * cs + cs by ring, List.take_add]

theorem downloadParallel_eq (data : List UInt8) (N : Nat) (hN : 0 < N)
    (hNT : N ≤ data.length) : downloadParallel data N = data := by
  obtain ⟨M, rfl⟩ : ∃ M, N = M + 1 := ⟨N - 1, by omega⟩
  simp only [downloadParallel, mergeChunks]
  have hcsI : ((data.length : Int) / ((M + 1 : Nat) : Int)) =
      ((data.length / (M + 1) : Nat) : Int) := (Int.ofNat_div _ _).symm
  rw [hcsI]
  set cs : Nat := data.length / (M + 1) with hcs
  have hcs1 : 1 ≤ cs := by
    rw [hcs]
    exact (Nat.one_le_div_iff (by omega)).mpr hNT
  rw [List.range_succ, List.map_append, List.flatten_append]
  simp only [List.map_cons, List.map_nil, List.flatten_cons, List.flatten_nil,
    List.append_nil]
  have hmid : (List.range M).map (fun i => rangeGet data (chunkStart ((cs : Nat) : Int) i)
      (chunkEnd (data.length : Int) ((cs : Nat) : Int) (M + 1) i)) =
      (List.range M).map (fun i => (data.drop (i * cs)).take cs) := by
    apply List.map_congr_left
    intro i hi
    have hiM : i ≠ (M + 1) - 1 := by
      have := List.mem_range.mp hi
      omega
    unfold chunkStart chunkEnd
    rw [if_neg hiM]
    exact rangeGet_mid data cs i hcs1
  rw [hmid, chunks_prefix_join]
  have hlast : chunkEnd (data.length : Int) ((cs : Nat) : Int) (M + 1) M =
      (data.length : Int) - 1 := by
    unfold chunkEnd
    rw [if_pos (by omega)]
  have hMcs_lt : M * cs < data.length := by
    have h1 : cs * (M + 1) ≤ data.length := by
      rw [hcs, Nat.mul_comm]
      exact Nat.mul_div_le data.length (M + 1)
    nlinarith
  have hstart : chunkStart ((cs : Nat) : Int) M = ((M * cs : Nat) : Int) := by
    unfold chunkStart
    push_cast
    ring
  rw [hlast, hstart, rangeGet_last data (M * cs) hMcs_lt, List.take_append_drop]

/-- C2 counterexample: a 1-byte resource downloaded with the default 3
chunks.  `chunkSize = 1/3 = 0`, so chunks 0 and 1 compute
`end = start - 1 = -1` and issue the malformed header
`Range: bytes=0--1`; a conforming server ignores the invalid
ranges-specifier and replies 200 with the full body, which
`downloadChunk` accepts (it admits `StatusOK`) and writes whole into
the part file.  The merged destination holds 3 bytes, not
`totalSize = 1`. -/
theorem c2_small_resource_counterexample :
    0 < ([42] : List UInt8).length ∧
    downloadParallel [42] 3 = [42, 42, 42] ∧
    (downloadParallel [42] 3).length ≠ ([42] : List UInt8).length := by
  decide

/-- C2 (amended): for a resource at least as large as the chunk count
(`chunkSize ≥ 1`, so every emitted `Range` header is well-formed) the
parallel path partitions `[0, totalSize)` into contiguous byte ranges
(the last chunk absorbing the remainder), and merging the part files in
index order reproduces the resource exactly, so the destination file's
length is exactly `totalSize`; for `0 < totalSize < numChunks` the
malformed empty ranges make the merged file longer than `totalSize`
(see the counterexample). -/
theorem c2_parallel_download_exact (data : List UInt8) (numChunks : Nat)
    (hN : 0 < numChunks) (hNT : numChunks ≤ data.length) :
    downloadParallel data numChunks = data ∧
    (downloadParallel data numChunks).length = data.length ∧
    (∀ i : Nat, i + 1 < numChunks →
        chunkEnd (data.length : Int) ((data.length : Int) / (numChunks : Int)) numChunks i + 1 =
          chunkStart ((data.length : Int) / (numChunks : Int)) (i + 1)) ∧
    chunkEnd (data.length : Int) ((data.length : Int) / (numChunks : Int)) numChunks
        (numChunks - 1) = (data.length : Int) - 1 := by
  refine ⟨downloadParallel_eq data numChunks hN hNT, ?_, ?_, ?_⟩
  · rw [downloadParallel_eq data numChunks hN hNT]
  · intro i hi
    unfold chunkEnd chunkStart
    rw [if_neg (by omega)]
    push_cast
    ring
  · unfold chunkEnd
    rw [if_pos rfl]

/-- Witness for C2: a 7-byte resource split into 3 chunks. -/
theorem c2_parallel_download_exact_witness :
    downloadParallel [1, 2, 3, 4, 5, 6, 7] 3 = [1, 2, 3, 4, 5, 6, 7] ∧
    (downloadParallel [1, 2, 3, 4, 5, 6, 7] 3).length =
      ([1, 2, 3, 4, 5, 6, 7] : List UInt8).length ∧
    (∀ i : Nat, i + 1 < 3 →
        chunkEnd (([1, 2, 3, 4, 5, 6, 7] : List UInt8).length : Int)
            ((([1, 2, 3, 4, 5, 6, 7] : List UInt8).length : Int) / ((3 : Nat) : Int)) 3 i + 1 =
          chunkStart ((([1, 2, 3, 4, 5, 6, 7] : List UInt8).length : Int) / ((3 : Nat) : Int))
            (i + 1)) ∧
    chunkEnd (([1, 2, 3, 4, 5, 6, 7] : List UInt8).length : Int)
        ((([1, 2, 3, 4, 5, 6, 7] : List UInt8).length : Int) / ((3 : Nat) : Int)) 3 (3 - 1) =
      (([1, 2, 3, 4, 5, 6, 7] : List UInt8).length : Int) - 1 :=
  c2_parallel_download_exact [1, 2, 3, 4, 5, 6, 7] 3 (by norm_num) (by norm_num)

theorem le_finite_iff (a b : ℚ) :
    (FloatQ.le (FloatQ.finite a) (FloatQ.finite b) = true) ↔ a ≤ b := by
  simp [FloatQ.le]

theorem dl_report_finite (bn : Int) (p : DLProgress) (hT : p.totalBytes ≠ 0) :
    (downloadCallbackReport bn p).progress =
      FloatQ.finite (0.30 + (p.downloadedBytes : ℚ) / (p.totalBytes : ℚ) * 0.15) := by
  have hQ : ((p.totalBytes : ℚ)) ≠ 0 := by exact_mod_cast hT
  simp [downloadCallbackReport, fdiv, fscale, fadd, hQ]

theorem dl_report_bounds (bn T : Int) (hT : 0 < T) (p : DLProgress)
    (htot : p.totalBytes = T) (h0 : 0 ≤ p.downloadedBytes)
    (hle : p.downloadedBytes ≤ p.totalBytes) :
    FloatQ.le (FloatQ.finite 0.30) (downloadCallbackReport bn p).progress = true ∧
      FloatQ.le (downloadCallbackReport bn p).progress (FloatQ.finite 0.45) = true := by
  rw [dl_report_finite bn p (by omega)]
  have hTQ : (0 : ℚ) < (p.totalBytes : ℚ) := by
    rw [htot]
    exact_mod_cast hT
  have hdQ : (0 : ℚ) ≤ (p.downloadedBytes : ℚ) := by exact_mod_cast h0
  have hfrac1 : (p.downloadedBytes : ℚ) / (p.totalBytes : ℚ) ≤ 1 := by
    rw [div_le_one hTQ]
    exact_mod_cast hle
  have hfrac0 : (0 : ℚ) ≤ (p.downloadedBytes : ℚ) / (p.totalBytes : ℚ) :=
    div_nonneg hdQ (le_of_lt hTQ)
  constructor
  · rw [le_finite_iff]
    nlinarith
  · rw [le_finite_iff]
    nlinarith

theorem dl_report_mono (bn T : Int) (hT : 0 < T) (p q : DLProgress)
    (hpt : p.totalBytes = T) (hqt : q.totalBytes = T)
    (hd : p.downloadedBytes ≤ q.downloadedBytes) :
    FloatQ.le (downloadCallbackReport bn p).progress
      (downloadCallbackReport bn q).progress = true := by
  rw [dl_report_finite bn p (by omega), dl_report_finite bn q (by omega), le_finite_iff]
  rw [hpt, hqt]
  have hTQ : (0 : ℚ) < (T : ℚ) := by exact_mod_cast hT
  have hdd : (p.downloadedBytes : ℚ) ≤ (q.downloadedBytes : ℚ) := by exact_mod_cast hd
  have hdiv : (p.downloadedBytes : ℚ) / (T : ℚ) ≤ (q.downloadedBytes : ℚ) / (T : ℚ) := by
    gcongr
  nlinarith

theorem chain_map_dl (bn T : Int) (hT : 0 < T) :
    ∀ dl : List DLProgress, (∀ p ∈ dl, p.totalBytes = T) →
      List.Chain' (fun p q => p.downloadedBytes ≤ q.downloadedBytes) dl →
      List.Chain' (fun a b : InstallProgress => FloatQ.le a.progress b.progress = true)
        (dl.map (downloadCallbackReport bn)) := by
  intro dl
  induction dl with
  | nil => intro _ _; simp
  | cons p rest ih =>
    intro htot hch
    cases rest with
    | nil => simp
    | cons q rest2 =>
      rw [List.map_cons, List.map_cons, List.chain'_cons]
      rcases List.chain'_cons.mp hch with ⟨hpq, hch2⟩
      refine ⟨dl_report_mono bn T hT p q (htot p (by simp)) (htot q (by simp)) hpq, ?_⟩
      have := ih (fun r hr => htot r (by simp [hr])) hch2
      simpa using this

theorem getLast?_mem_own {α : Type} : ∀ (l : List α) (x : α), l.getLast? = some x → x ∈ l
  | [], x, h => by simp at h
  | [a], x, h => by
    simp [List.getLast?] at h
    simp [h]
  | a :: b :: t, x, h => by
    rw [List.getLast?_cons_cons] at h
    exact List.mem_cons_of_mem a (getLast?_mem_own (b :: t) x h)

/-- C6 counterexample: in the size-unknown streaming path the
downloader's periodic snapshots carry `TotalBytes = 0`
(`downloadStreaming` sets it only if a `Content-Length` appears), and
the installer's callback divides by it: `float64(5)/float64(0) = +Inf`,
so the download report has progress `+Inf`, and the following
`Extracting archive` report (0.45) is strictly smaller under the IEEE
order — the delivered `Progress` sequence is not non-decreasing. -/
theorem c6_streaming_counterexample :
    (installReports 17000 false [⟨0, 5, 1, 0⟩]).map InstallProgress.progress =
      [.finite 0, .finite 0.14, .finite 0.28, .finite 0.30, .posInf, .finite 0.45,
       .finite 0.57, .finite 0.625, .finite 0.75, .finite 0.875, .finite 1.0] ∧
    FloatQ.lt (FloatQ.finite 0.45) FloatQ.posInf = true ∧
    ¬ List.Chain' (fun a b : InstallProgress => FloatQ.le a.progress b.progress = true)
        (installReports 17000 false [⟨0, 5, 1, 0⟩]) := by
  refine ⟨?_, rfl, ?_⟩
  · norm_num [installReports, installBinaryReports, downloadCallbackReport, baseReport,
      fdiv, fscale, fadd]
  · simp only [installReports, installBinaryReports, Bool.false_eq_true, if_false,
      List.map_cons, List.map_nil, List.cons_append, List.nil_append,
      List.singleton_append]
    norm_num [List.chain'_cons, List.chain'_singleton, downloadCallbackReport, baseReport,
      fdiv, fscale, fadd, FloatQ.le]

/-- C6 (amended): whenever the download sub-phase reports a known
positive total (`TotalBytes = T > 0` in every snapshot, as the chunked
and single-connection paths do) with non-decreasing downloaded counts
never exceeding the total, the `Progress` values delivered across a
single `Install` call — cache hit or download — are non-decreasing
under the IEEE order, including through the download sub-phase and
every truncated (aborted) run; the size-unknown streaming fallback
reports `TotalBytes = 0` and violates this (see the counterexample). -/
theorem c6_install_progress_monotone (buildNumber : Int) (cacheHit : Bool)
    (dl : List DLProgress) (T : Int) (hT : 0 < T)
    (htot : ∀ p ∈ dl, p.totalBytes = T)
    (hbound : ∀ p ∈ dl, 0 ≤ p.downloadedBytes ∧ p.downloadedBytes ≤ p.totalBytes)
    (hmono : List.Chain' (fun p q => p.downloadedBytes ≤ q.downloadedBytes) dl) :
    List.Chain' (fun a b : InstallProgress => FloatQ.le a.progress b.progress = true)
      (installReports buildNumber cacheHit dl) ∧
    (∀ n : Nat, List.Chain' (fun a b : InstallProgress => FloatQ.le a.progress b.progress = true)
      ((installReports buildNumber cacheHit dl).take n)) := by
  have main : List.Chain'
      (fun a b : InstallProgress => FloatQ.le a.progress b.progress = true)
      (installReports buildNumber cacheHit dl) := by
    cases cacheHit with
    | true =>
      simp only [installReports, installBinaryReports, if_pos, List.cons_append,
        List.singleton_append, List.nil_append]
      norm_num [List.chain'_cons, List.chain'_singleton, baseReport, le_finite_iff]
    | false =>
      simp only [installReports, installBinaryReports, Bool.false_eq_true, if_false,
        List.cons_append, List.append_assoc, List.singleton_append]
      rw [List.chain'_cons, List.chain'_cons, List.chain'_cons, List.chain'_cons']
      refine ⟨by norm_num [baseReport, le_finite_iff], by norm_num [baseReport, le_finite_iff],
        by norm_num [baseReport, le_finite_iff], ?_, ?_⟩
      · intro h hh
        cases dl with
        | nil =>
          simp only [List.map_nil, List.nil_append, List.head?_cons, Option.mem_def,
            Option.some.injEq] at hh
          rw [← hh]
          norm_num [baseReport, le_finite_iff]
        | cons p rest =>
          simp only [List.map_cons, List.cons_append, List.head?_cons, Option.mem_def,
            Option.some.injEq] at hh
          rw [← hh]
          have hb := dl_report_bounds buildNumber T hT p (htot p (by simp))
            (hbound p (by simp)).1 (hbound p (by simp)).2
          simpa [baseReport] using hb.1
      · rw [List.chain'_append]
        refine ⟨chain_map_dl buildNumber T hT dl htot hmono, ?_, ?_⟩
        · norm_num [List.chain'_cons, List.chain'_singleton, baseReport, le_finite_iff]
        · intro x hx y hy
          simp only [List.head?_cons, Option.mem_def, Option.some.injEq] at hy
          have hxmem : x ∈ dl.map (downloadCallbackReport buildNumber) :=
            getLast?_mem_own _ x hx
          rcases List.mem_map.mp hxmem with ⟨p, hp, rfl⟩
          have hb := dl_report_bounds buildNumber T hT p (htot p hp)
            (hbound p hp).1 (hbound p hp).2
          rw [← hy]
          simpa [baseReport] using hb.2
  exact ⟨main, fun n => main.take n⟩

/-- Witness for the amended C6: a two-snapshot download of a 100-byte
resource. -/
theorem c6_install_progress_monotone_witness :
    List.Chain' (fun a b : InstallProgress => FloatQ.le a.progress b.progress = true)
      (installReports 17000 false
        [⟨100, 30, 1, 5⟩, ⟨100, 80, 2, 3⟩]) ∧
    (∀ n : Nat, List.Chain' (fun a b : InstallProgress => FloatQ.le a.progress b.progress = true)
      ((installReports 17000 false [⟨100, 30, 1, 5⟩, ⟨100, 80, 2, 3⟩]).take n)) :=
  c6_install_progress_monotone 17000 false [⟨100, 30, 1, 5⟩, ⟨100, 80, 2, 3⟩] 100
    (by norm_num)
    (by
      intro p hp
      simp only [List.mem_cons, List.mem_singleton, List.not_mem_nil, or_false] at hp
      rcases hp with rfl | rfl <;> norm_num)
    (by
      intro p hp
      simp only [List.mem_cons, List.mem_singleton, List.not_mem_nil, or_false] at hp
      rcases hp with rfl | rfl <;> norm_num)
    (by norm_num [List.chain'_cons, List.chain'_singleton])
